import Mathlib

/-!
Verification development for the early-warning feature/label pipeline of
`early_warning_methods.py` (bucket parsing, sentinel normalization, peer
z-scores, rolling features, and drop/closure/union label construction).

Modelling conventions:
* A pandas cell that may hold NaN / pd.NA is `Option ℚ` (`none` = missing).
  Numeric data is embedded as exact rationals.
* A merchant's monthly series (the frame is sorted by merchant and month) is a
  `List (Option ℚ)`, index = row position within the merchant.
* Row-level string parsing operates on `List Char`; the three regular
  expressions of `parse_bucket` are hand-compiled to recursive scanners whose
  leftmost-match semantics is spelled out below.
* The peer z-score uses a real square root (pandas `std`), which forces the
  few definitions touching it to be noncomputable; everything feeding the
  degeneracy decision stays in ℚ.
-/

/-! ## Values and sentinels -/

/-- A numeric pandas cell: `none` models NaN / pd.NA. -/
abbrev Cell := Option ℚ

/-- The sentinel set `SPECIAL_MISSING = {-999999.9, -999999.0, -99999.9, -99999.0}`. -/
def SPECIAL_MISSING : List ℚ := [-9999999/10, -999999, -999999/10, -99999]

/-- `replace_special_missing` on a single numeric column:
`df.loc[df[col].isin(SPECIAL_MISSING), col] = np.nan`. -/
def replace_special_missing_col (col : List Cell) : List Cell :=
  col.map (fun x =>
    match x with
    | some v => if v ∈ SPECIAL_MISSING then none else some v
    | none => none)

/-- `standardize_rates` on one designated 0-100 rate column (already numeric):
sentinel values become missing, then the column is divided by 100. -/
def standardize_rates_col (col : List Cell) : List Cell :=
  (replace_special_missing_col col).map (Option.map (fun v => v / 100))

/-! ## parse_bucket: hand-compiled regular expressions

`parse_bucket` uses three Python regexes:
* `re.match(r"^(\d+)_", s)` for the ordinal,
* `re.search(r"(\d+)\s*-\s*(\d+)\s*%?", s)` for an explicit numeric range,
* `re.search(r"(\d+(\.\d+)?)\s*%?", s)` for a bare number.
In each of them the leading `\d+` is effectively possessive (backtracking a
digit can never let the following `-`/`.`/end succeed, since the next
character would again be a digit), so the leftmost match is the first
position at which the whole greedy scan succeeds; `re.search` is modelled as
trying each start position left to right. -/

/-- whitespace as matched by `\s` / stripped by `str.strip`. -/
def isSpaceChar (c : Char) : Bool := c.isWhitespace

/-- `str.strip()`: remove whitespace from both ends. -/
def stripBoth (s : List Char) : List Char :=
  ((s.dropWhile isSpaceChar).reverse.dropWhile isSpaceChar).reverse

/-- numeric value of a digit run (`int("0071") = 71`). -/
def digitsVal (ds : List Char) : Nat := ds.foldl (fun a c => 10 * a + (c.toNat - 48)) 0

/-- `re.match(r"^(\d+)_", s)`: leading digit run immediately followed by `_`. -/
def matchOrdinal (s : List Char) : Option Nat :=
  let ds := s.takeWhile Char.isDigit
  if ds.isEmpty then none
  else
    match s.drop ds.length with
    | '_' :: _ => some (digitsVal ds)
    | _ => none

/-- the range pattern `(\d+)\s*-\s*(\d+)\s*%?` anchored at the start of `s`. -/
def rangeAt (s : List Char) : Option (Nat × Nat) :=
  let d1 := s.takeWhile Char.isDigit
  if d1.isEmpty then none
  else
    match (s.drop d1.length).dropWhile isSpaceChar with
    | '-' :: r =>
      let r2 := r.dropWhile isSpaceChar
      let d2 := r2.takeWhile Char.isDigit
      if d2.isEmpty then none else some (digitsVal d1, digitsVal d2)
    | _ => none

/-- `re.search` of the range pattern: first start position where it matches. -/
def searchRange : List Char → Option (Nat × Nat)
  | [] => none
  | c :: r =>
    match rangeAt (c :: r) with
    | some p => some p
    | none => searchRange r

/-- the bare-number pattern `(\d+(\.\d+)?)\s*%?` anchored at the start of `s`;
returns (integer digits, fractional digits, number of fractional digits). -/
def numAt (s : List Char) : Option (Nat × Nat × Nat) :=
  let d1 := s.takeWhile Char.isDigit
  if d1.isEmpty then none
  else
    match s.drop d1.length with
    | '.' :: r =>
      let d2 := r.takeWhile Char.isDigit
      if d2.isEmpty then some (digitsVal d1, 0, 0)
      else some (digitsVal d1, digitsVal d2, d2.length)
    | _ => some (digitsVal d1, 0, 0)

/-- `re.search` of the bare-number pattern. -/
def searchNum : List Char → Option (Nat × Nat × Nat)
  | [] => none
  | c :: r =>
    match numAt (c :: r) with
    | some p => some p
    | none => searchNum r

/-- `float` value of a matched bare number `(i, f, k)` = `i.f` with `k` fractional digits. -/
def numVal (p : Nat × Nat × Nat) : ℚ := (p.1 : ℚ) + (p.2.1 : ℚ) / (10 : ℚ) ^ p.2.2

/-- substring containment, `pat in s` for Python strings. -/
def hasSub (pat : List Char) : List Char → Bool
  | [] => pat.isEmpty
  | c :: r => pat.isPrefixOf (c :: r) || hasSub pat r

/-- the midpoint extraction of `parse_bucket` on the stripped string:
explicit numeric range first, then the fixed vocabulary of phrases, then a
bare percentage number, else missing. -/
def bucketMid (s : List Char) : Option ℚ :=
  match searchRange s with
  | some (lo, hi) => some (((lo : ℚ) / 100 + (hi : ℚ) / 100) / 2)
  | none =>
    if hasSub "90%초과".toList s || hasSub "90% 초과".toList s then some (95/100)
    else if hasSub "75-90%".toList s then some (825/1000)
    else if hasSub "50-75%".toList s then some (625/1000)
    else if hasSub "25-50%".toList s then some (375/1000)
    else if hasSub "10-25%".toList s then some (175/1000)
    else if hasSub "10%이하".toList s || hasSub "10% 이하".toList s ||
            hasSub "1구간".toList s then some (5/100)
    else
      match searchNum s with
      | some p => some (numVal p / 100)
      | none => none

/-- `parse_bucket(s)`: `None`/NaN input gives `(None, None)`; otherwise the
string is stripped and the ordinal and midpoint are extracted independently. -/
def parse_bucket (s0 : Option (List Char)) : Option Nat × Option ℚ :=
  match s0 with
  | none => (none, none)
  | some raw => (matchOrdinal (stripBoth raw), bucketMid (stripBoth raw))

/-! ## KPI proxy (make_labels, coalesce step) -/

/-- the fixed priority list of candidate KPI midpoint columns. -/
def KPI_CANDIDATES : List String :=
  ["RC_M1_SAA_MID", "RC_M1_TO_UE_CT_MID", "RC_M1_UE_CUS_CN_MID", "RC_M1_AV_NP_AT_MID"]

/-- `[c for c in [...] if c in df.columns]`: candidates present in the panel,
in priority order. -/
def kpi_candidates_of (panelCols : List String) : List String :=
  KPI_CANDIDATES.filter (fun c => c ∈ panelCols)

/-- the guard in `make_labels`: `raise ValueError` iff no candidate column
exists in the panel. -/
def makeLabelsKpiGuard (panelCols : List String) : Except String Unit :=
  if kpi_candidates_of panelCols = [] then
    Except.error "No KPI *_MID columns found for drop labeling."
  else Except.ok ()

/-- next non-missing entry (used by `bfill`: a missing entry takes the value
of the nearest following valid entry). -/
def nextValid : List Cell → Cell
  | [] => none
  | some v :: _ => some v
  | none :: r => nextValid r

/-- pandas `ffill(axis=1)` along one row, carrying the last valid value. -/
def ffillRow (carry : Cell) : List Cell → List Cell
  | [] => []
  | none :: r => carry :: ffillRow carry r
  | some v :: r => some v :: ffillRow (some v) r

/-- pandas `bfill(axis=1)` along one row. -/
def bfillRow : List Cell → List Cell
  | [] => []
  | none :: r => nextValid r :: bfillRow r
  | some v :: r => some v :: bfillRow r

/-- one row's KPI proxy: `df[kpi_candidates].ffill(axis=1).bfill(axis=1).iloc[:,0]`,
applied to the row restricted to the present candidate columns. -/
def kpiProxyRow (vals : List Cell) : Cell :=
  (bfillRow (ffillRow none vals)).headD none

/-- Specification-side definition, from the spec's words: "pick the first
non-missing value, left-to-right, among the candidate columns". -/
def firstNonMissing : List Cell → Cell
  | [] => none
  | some v :: _ => some v
  | none :: r => firstNonMissing r

/-! ## Rolling statistics on one merchant's series -/

/-- pandas `rolling(window=w, min_periods=minp).mean()` at row `i` of one
merchant's series: mean of the non-missing values among the last `w` rows
(partial windows at the start), missing unless at least `minp` of them are
non-missing. -/
def rollMean (w minp : Nat) (xs : List Cell) (i : Nat) : Cell :=
  let win := ((xs.take (i+1)).drop (i + 1 - w)).filterMap id
  if minp ≤ win.length ∧ i < xs.length then some (win.sum / win.length) else none

/-- `groupby(id).shift(-H)` at row `i`: the value `H` rows forward in the
same merchant's series (missing if that row does not exist or holds NaN). -/
def shiftNeg (H : Nat) (xs : List Cell) (i : Nat) : Cell :=
  xs.getD (i + H) none

/-! ## Labels (make_labels) -/

/-- float comparison `ratio <= thresh` for `ratio = (future - ma3)/ma3`,
following IEEE conventions when `ma3 = 0`: the ratio is then `-inf` (compares
true against a finite threshold) for `future < 0`, `+inf` or NaN (compare
false) otherwise. -/
def dropCmp (f m thresh : ℚ) : Bool :=
  if m = 0 then (if f < 0 then true else false)
  else decide ((f - m) / m ≤ thresh)

/-- drop label `y_drop_hH` at row `i` of one merchant's KPI-proxy series
`xs`: `lab = (ratio <= drop_thresh).astype("Int8")` with
`lab[future.isna() | ma3.isna()] = pd.NA`, where `ma3` is the trailing
3-row mean (min_periods=2) and `future` is the value `H` rows forward. -/
def y_drop (xs : List Cell) (H : Nat) (thresh : ℚ) (i : Nat) : Option ℤ :=
  match shiftNeg H xs i, rollMean 3 2 xs i with
  | some f, some m => some (if dropCmp f m thresh then 1 else 0)
  | _, _ => none

/-- closure label for one row: `closeMonth` is the merchant's closure month
(`none` both when `MCT_ME_D` is NaT for the merchant and when the column is
absent from the panel, in which case every label stays at its initial 0),
`t` is the row's month index.  With a known closure month the distance
`dist = closeMonth - t` gives 1 on `1 ≤ dist ≤ close_horizon`, missing on
`dist ≤ 0`, and the initial 0 otherwise. -/
def y_close (closeMonth : Option ℤ) (t : ℤ) (close_horizon : ℤ) : Option ℤ :=
  match closeMonth with
  | none => some 0
  | some cm =>
    let dist := cm - t
    if 1 ≤ dist ∧ dist ≤ close_horizon then some 1
    else if dist ≤ 0 then none
    else some 0

/-- one step of the row-wise `max(axis=1, skipna=True)`. -/
def maxNA (a b : Option ℤ) : Option ℤ :=
  match a, b with
  | none, b => b
  | some a, none => some a
  | some a, some b => some (max a b)

/-- row-wise `max(axis=1, skipna=True)`: maximum of the non-missing entries,
missing when all entries are missing. -/
def rowMaxSkipNA (l : List (Option ℤ)) : Option ℤ := l.foldl maxNA none

/-- the label components entering `y_risk_any` for one row: one drop label
per configured horizon followed by the closure label. -/
def riskComponents (xs : List Cell) (Hs : List Nat) (thresh : ℚ)
    (closeMonth : Option ℤ) (t : ℤ) (close_horizon : ℤ) (i : Nat) : List (Option ℤ) :=
  Hs.map (fun H => y_drop xs H thresh i) ++ [y_close closeMonth t close_horizon]

/-- `y_risk_any = df[drop_cols + [close_col]].max(axis=1, skipna=True)`. -/
def y_risk_any (xs : List Cell) (Hs : List Nat) (thresh : ℚ)
    (closeMonth : Option ℤ) (t : ℤ) (close_horizon : ℤ) (i : Nat) : Option ℤ :=
  rowMaxSkipNA (riskComponents xs Hs thresh closeMonth t close_horizon i)

/-! ## Percent change (add_rolling_features) -/

/-- an IEEE float result: NaN, an infinity, or a finite (rational) value. -/
inductive FVal
  | nan
  | pinf
  | ninf
  | val (q : ℚ)
deriving DecidableEq

/-- `groupby(id)[cols].pct_change(periods=1)` at row `i` of one merchant's
series: `current/previous - 1`, NaN at the merchant's first row or when
either value is missing (no fill of the shifted series), and `±inf` (NaN for
`0/0`) when the previous value is zero. -/
def pct_change1 (xs : List Cell) (i : Nat) : FVal :=
  if i = 0 then FVal.nan
  else
    match xs.getD (i - 1) none, xs.getD i none with
    | some p, some c =>
      if p = 0 then
        (if 0 < c then FVal.pinf else if c < 0 then FVal.ninf else FVal.nan)
      else FVal.val (c / p - 1)
    | _, _ => FVal.nan

/-- the windows `add_rolling_features` is called with in `data_transform`. -/
def ROLL_WINDOWS : List Nat := [3, 6, 12]

/-- the guard `if w == windows[0]` around the percent-change computation in
`add_rolling_features`: the `__PCT1` columns are produced in the iteration of
window `w` exactly when `w` is the first configured window. -/
def pctProducedAt (windows : List Nat) (w : Nat) : Bool := w == windows.headD 0

/-! ## Peer z-scores (build_peer_zscores) -/

/-- the non-missing values of a peer group's column. -/
def validVals (g : List Cell) : List ℚ := g.filterMap id

/-- `groupby(...).transform("mean")`: mean over the group's non-missing
values, NaN when there are none. -/
def groupMean (g : List Cell) : Cell :=
  let vs := validVals g
  if vs.length = 0 then none else some (vs.sum / vs.length)

/-- sample variance (pandas `std` uses ddof = 1) of the group's non-missing
values, kept in ℚ; NaN when fewer than two of them exist. -/
def groupVar (g : List Cell) : Option ℚ :=
  let vs := validVals g
  if vs.length ≤ 1 then none
  else some ((vs.map (fun x => (x - vs.sum / vs.length) ^ 2)).sum / ((vs.length : ℚ) - 1))

/-- `transform("std")` followed by `std.replace({0.0: np.nan})`.  The std is
`Real.sqrt` of the sample variance and, the variance being nonnegative, the
std is 0 exactly when the variance is 0, so the replace step maps exactly the
zero-variance groups to missing. -/
noncomputable def groupStdRepl (g : List Cell) : Option ℝ :=
  match groupVar g with
  | none => none
  | some v => if v = 0 then none else some (Real.sqrt (v : ℝ))

/-- peer z-score of one member: `(df[c] - mean) / std.replace({0.0: np.nan})`,
missing whenever the member's value, the group mean, or the cleaned std is
missing. -/
noncomputable def peerZ (g : List Cell) (x : Cell) : Option ℝ :=
  match x, groupMean g, groupStdRepl g with
  | some xv, some m, some s => some (((xv : ℝ) - (m : ℝ)) / s)
  | _, _, _ => none

/-- one panel row as seen by `build_peer_zscores`, restricted to one numeric
column: the two peer keys, the month, and the column's value. -/
structure PanelRow where
  sigungu : Option String
  bzn : Option String
  ta_ym : Option ℤ
  value : Cell
deriving DecidableEq

/-- the grouping key `["MCT_SIGUNGU_NM", "HPSN_MCT_BZN_CD_NM", "TA_YM"]`;
`none` when any component is missing (pandas `groupby` drops such rows from
every group). -/
def rowKey (r : PanelRow) : Option (String × String × ℤ) :=
  match r.sigungu, r.bzn, r.ta_ym with
  | some a, some b, some t => some (a, b, t)
  | _, _, _ => none

/-- the column values of the peer group with (fully present) key `k`. -/
def keyGroup (rows : List PanelRow) (k : String × String × ℤ) : List Cell :=
  (rows.filter (fun r => rowKey r = some k)).map (fun r => r.value)

/-- the `__PEER_Z` column produced by `build_peer_zscores` for one numeric
column: rows whose group key is incomplete are excluded from the grouping and
receive NaN group statistics, hence a missing z-score. -/
noncomputable def peerZCol (rows : List PanelRow) : List (Option ℝ) :=
  rows.map (fun r =>
    match rowKey r with
    | none => none
    | some k => peerZ (keyGroup rows k) r.value)

/-- the `data_transform` step `merged[col] = np.nan` for each peer-key column
absent after the merge: every row's peer keys become missing. -/
def addMissingKeyCol (rows : List PanelRow) : List PanelRow :=
  rows.map (fun r => { r with sigungu := none, bzn := none })

/-! ## Helper lemmas -/

theorem mem_replace_special (col : List Cell) (v : ℚ)
    (h : some v ∈ replace_special_missing_col col) : v ∉ SPECIAL_MISSING := by
  simp only [replace_special_missing_col, List.mem_map] at h
  obtain ⟨x, _, hx⟩ := h
  cases x with
  | none => simp at hx
  | some w =>
    by_cases hw : w ∈ SPECIAL_MISSING
    · simp [hw] at hx
    · simp only [if_neg hw, Option.some.injEq] at hx
      rwa [← hx]

/-! ## C2 -/

/-- C2: the closure-proximity label is 1 exactly when the closure month is
known and lies 1..close_horizon months ahead of the row, missing exactly when
it is known and the row is at or after it, and 0 otherwise — in particular 0
on every row of a merchant with no known closure date. -/
theorem c2_closure_label (cm : Option ℤ) (t hor : ℤ) :
    (y_close cm t hor = some 1 ↔ ∃ c, cm = some c ∧ 1 ≤ c - t ∧ c - t ≤ hor) ∧
    (y_close cm t hor = none ↔ ∃ c, cm = some c ∧ c - t ≤ 0) ∧
    (y_close cm t hor = some 0 ↔
      cm = none ∨ ∃ c, cm = some c ∧ 0 < c - t ∧ hor < c - t) := by
  cases cm with
  | none => simp [y_close]
  | some c =>
    simp only [y_close, Option.some.injEq, exists_eq_left']
    split_ifs with h1 h2
    · refine ⟨by simp [h1], ⟨fun h => by simp at h, fun h => absurd h1.1 (by omega)⟩,
        ⟨fun h => by simp at h, ?_⟩⟩
      rintro (h | ⟨hd1, hd2⟩)
      · simp at h
      · exact absurd h1.2 (by omega)
    · refine ⟨⟨fun h => by simp at h, fun h => absurd h h1⟩,
        ⟨fun _ => h2, fun _ => rfl⟩,
        ⟨fun h => by simp at h, ?_⟩⟩
      rintro (h | ⟨hd1, hd2⟩)
      · simp at h
      · exact absurd hd1 (by omega)
    · exact ⟨⟨fun h => by simp at h, fun h => absurd h h1⟩,
        ⟨fun h => by simp at h, fun h => absurd h h2⟩,
        ⟨fun _ => Or.inr ⟨by omega, by omega⟩, fun _ => rfl⟩⟩

theorem c2_closure_label_witness : y_close (some 5) 5 3 = none :=
  (c2_closure_label (some 5) 5 3).2.1.mpr ⟨5, rfl, by decide⟩

/-! ## C6 -/

/-- C6: after sentinel normalization no column value equals a sentinel, and
since `standardize_rates` replaces sentinels before dividing by 100, no rate
value of sentinel origin (a sentinel scaled by the rescale) survives. -/
theorem c6_sentinel_elimination :
    (∀ (col : List Cell) (v : ℚ), some v ∈ replace_special_missing_col col →
        v ∉ SPECIAL_MISSING) ∧
    (∀ (col : List Cell) (v : ℚ), some v ∈ standardize_rates_col col →
        ∀ s ∈ SPECIAL_MISSING, v ≠ s / 100) := by
  refine ⟨mem_replace_special, ?_⟩
  intro col v hv s hs hvs
  simp only [standardize_rates_col, List.mem_map] at hv
  obtain ⟨y, hy, hmap⟩ := hv
  cases y with
  | none => simp at hmap
  | some u =>
    simp only [Option.map_some', Option.some.injEq] at hmap
    have hu : u ∉ SPECIAL_MISSING := mem_replace_special col u hy
    apply hu
    have : u = s := by
      have h100 : u / 100 = s / 100 := by rw [hmap, hvs]
      field_simp at h100
      exact h100
    rwa [this]

theorem c6_sentinel_witness : (5 : ℚ) ∉ SPECIAL_MISSING :=
  c6_sentinel_elimination.1 [some (-999999), some 5] 5 (by norm_num [replace_special_missing_col, SPECIAL_MISSING])

/-! ## C8 -/

/-- C8 (counterexample): with previous value 0 and current value 5 the
single-step percent change is +inf, not missing, refuting "missing whenever
the immediately preceding month's value is zero". -/
theorem c8_pct_change_cex :
    pct_change1 [some 0, some 5] 1 = FVal.pinf ∧ FVal.pinf ≠ FVal.nan := by
  constructor
  · norm_num [pct_change1]
  · simp

theorem pct_change1_eq (xs : List Cell) (i : Nat) (hi : ¬ i = 0) (p c : ℚ)
    (hp : xs.getD (i-1) none = some p) (hc : xs.getD i none = some c) :
    pct_change1 xs i =
      if p = 0 then (if 0 < c then FVal.pinf else if c < 0 then FVal.ninf else FVal.nan)
      else FVal.val (c / p - 1) := by
  unfold pct_change1
  rw [if_neg hi, hp, hc]

/-- C8 (amended): the percent-change columns are produced only in the first
configured window's iteration, which for the configured windows (3,6,12) is
the shortest; the value is missing at a merchant's first row; when the
previous value is 0 it is missing only if the current value is also 0 and
is ±inf otherwise; with a nonzero previous value it equals current/prev - 1. -/
theorem c8_pct_change (xs : List Cell) (i : Nat) :
    (∀ w ∈ ROLL_WINDOWS, (pctProducedAt ROLL_WINDOWS w = true ↔ ∀ v ∈ ROLL_WINDOWS, w ≤ v)) ∧
    pct_change1 xs 0 = FVal.nan ∧
    (∀ c : ℚ, 0 < i → xs.getD (i-1) none = some 0 → xs.getD i none = some c →
       ((c = 0 → pct_change1 xs i = FVal.nan) ∧
        (0 < c → pct_change1 xs i = FVal.pinf) ∧
        (c < 0 → pct_change1 xs i = FVal.ninf))) ∧
    (∀ p c : ℚ, 0 < i → xs.getD (i-1) none = some p → xs.getD i none = some c → p ≠ 0 →
       pct_change1 xs i = FVal.val (c / p - 1)) := by
  refine ⟨by decide, by simp [pct_change1], ?_, ?_⟩
  · intro c hi hp hc
    have hne : ¬ i = 0 := Nat.pos_iff_ne_zero.mp hi
    rw [pct_change1_eq xs i hne 0 c hp hc]
    refine ⟨?_, ?_, ?_⟩ <;> intro hcs
    · subst hcs; norm_num
    · rw [if_pos rfl, if_pos hcs]
    · rw [if_pos rfl, if_neg (by linarith : ¬ (0:ℚ) < c), if_pos hcs]
  · intro p c hi hp hc hpne
    have hne : ¬ i = 0 := Nat.pos_iff_ne_zero.mp hi
    rw [pct_change1_eq xs i hne p c hp hc, if_neg hpne]

theorem c8_pct_change_witness :
    pct_change1 [some 2, some 1] 1 = FVal.val ((1 : ℚ) / 2 - 1) :=
  (c8_pct_change [some 2, some 1] 1).2.2.2 2 1 (by decide) (by decide) (by decide) (by decide)

/-! ## C9 -/

/-- C9 (counterexample): the input "150-250%" parses to midpoint 2, which is
outside [0,1], refuting "every non-null midpoint lies in [0,1]". -/
theorem c9_midpoint_cex :
    (parse_bucket (some "150-250%".toList)).2 = some 2 ∧ ¬ ((2 : ℚ) ≤ 1) := by
  constructor
  · have hst : stripBoth "150-250%".toList = "150-250%".toList := by decide
    have hr : searchRange "150-250%".toList = some (150, 250) := by decide
    simp only [parse_bucket, hst, bucketMid, hr]
    norm_num
  · norm_num

theorem numVal_nonneg (p : Nat × Nat × Nat) : 0 ≤ numVal p := by
  unfold numVal
  positivity

/-- C9 (amended): every non-null midpoint produced by the bucket parser is
nonnegative (the upper bound 1 does not hold in general). -/
theorem c9_midpoint_nonneg (s0 : Option (List Char)) (q : ℚ)
    (h : (parse_bucket s0).2 = some q) : 0 ≤ q := by
  cases s0 with
  | none => simp [parse_bucket] at h
  | some raw =>
    simp only [parse_bucket] at h
    revert h
    unfold bucketMid
    cases hr : searchRange (stripBoth raw) with
    | some p =>
      obtain ⟨lo, hi⟩ := p
      intro h
      simp only [Option.some.injEq] at h
      rw [← h]
      positivity
    | none =>
      split_ifs <;> intro h <;> simp only [Option.some.injEq] at h <;>
        try (rw [← h]; norm_num)
      revert h
      cases hn : searchNum (stripBoth raw) with
      | some p =>
        intro h
        simp only [Option.some.injEq] at h
        rw [← h]
        have := numVal_nonneg p
        positivity
      | none => intro h; simp at h

theorem c9_midpoint_nonneg_witness : (0 : ℚ) ≤ 175/1000 := by
  apply c9_midpoint_nonneg (some "10-25%".toList)
  have hst : stripBoth "10-25%".toList = "10-25%".toList := by decide
  have hr : searchRange "10-25%".toList = some (10, 25) := by decide
  simp only [parse_bucket, hst, bucketMid, hr]
  norm_num

/-! ## C4 -/

theorem numAt_isSome_of_digit (c : Char) (r : List Char) (hc : c.isDigit = true) :
    ∃ p, numAt (c :: r) = some p := by
  simp only [numAt, List.takeWhile_cons, hc, if_true, List.isEmpty_cons, Bool.false_eq_true,
    if_false]
  split
  · split_ifs <;> exact ⟨_, rfl⟩
  · exact ⟨_, rfl⟩

theorem searchNum_eq_none_iff (s : List Char) :
    searchNum s = none ↔ ∀ c ∈ s, c.isDigit = false := by
  induction s with
  | nil => simp [searchNum]
  | cons c r ih =>
    by_cases hc : c.isDigit = true
    · obtain ⟨p, hp⟩ := numAt_isSome_of_digit c r hc
      simp [searchNum, hp, hc]
    · have hc' : c.isDigit = false := by simpa using hc
      have hnone : numAt (c :: r) = none := by
        simp [numAt, List.takeWhile_cons, hc']
      simp [searchNum, hnone, hc', ih]

theorem searchRange_eq_none (s : List Char) (h : ∀ c ∈ s, c.isDigit = false) :
    searchRange s = none := by
  induction s with
  | nil => rfl
  | cons c r ih =>
    have hc : c.isDigit = false := h c (by simp)
    have hr : rangeAt (c :: r) = none := by
      simp [rangeAt, List.takeWhile_cons, hc]
    simp only [searchRange, hr]
    exact ih (fun x hx => h x (by simp [hx]))

theorem mem_of_hasSub (pat s : List Char) (h : hasSub pat s = true) : ∀ c ∈ pat, c ∈ s := by
  induction s with
  | nil =>
    simp only [hasSub, List.isEmpty_iff] at h
    subst h
    simp
  | cons a r ih =>
    simp only [hasSub, Bool.or_eq_true] at h
    rcases h with h | h
    · intro c hc
      have hp : pat <+: (a :: r) := List.isPrefixOf_iff_prefix.mp h
      exact hp.sublist.subset hc
    · intro c hc
      exact List.mem_cons_of_mem a (ih h c hc)

theorem hasSub_false_of_nodigit (pat s : List Char) (c : Char) (hc : c ∈ pat)
    (hcd : c.isDigit = true) (h : ∀ x ∈ s, x.isDigit = false) :
    hasSub pat s = false := by
  cases hh : hasSub pat s
  · rfl
  · have hfa := h c (mem_of_hasSub pat s hh c hc)
    rw [hcd] at hfa
    exact absurd hfa (by simp)

theorem bucketMid_eq_none_iff (s : List Char) :
    bucketMid s = none ↔ ∀ c ∈ s, c.isDigit = false := by
  constructor
  · intro h
    have h2 : searchNum s = none := by
      rcases hr : searchRange s with _ | p
      · rcases hn : searchNum s with _ | p2
        · rfl
        · simp only [bucketMid, hr, hn] at h
          split_ifs at h
      · obtain ⟨lo, hi⟩ := p
        simp only [bucketMid, hr] at h
        exact absurd h (by simp)
    exact (searchNum_eq_none_iff s).mp h2
  · intro hnd
    have h1 := searchRange_eq_none s hnd
    have h2 := (searchNum_eq_none_iff s).mpr hnd
    have hA := hasSub_false_of_nodigit "90%초과".toList s '9' (by decide) (by decide) hnd
    have hB := hasSub_false_of_nodigit "90% 초과".toList s '9' (by decide) (by decide) hnd
    have hC := hasSub_false_of_nodigit "75-90%".toList s '7' (by decide) (by decide) hnd
    have hD := hasSub_false_of_nodigit "50-75%".toList s '5' (by decide) (by decide) hnd
    have hE := hasSub_false_of_nodigit "25-50%".toList s '2' (by decide) (by decide) hnd
    have hF := hasSub_false_of_nodigit "10-25%".toList s '1' (by decide) (by decide) hnd
    have hG := hasSub_false_of_nodigit "10%이하".toList s '1' (by decide) (by decide) hnd
    have hH := hasSub_false_of_nodigit "10% 이하".toList s '1' (by decide) (by decide) hnd
    have hI := hasSub_false_of_nodigit "1구간".toList s '1' (by decide) (by decide) hnd
    simp only [bucketMid, h1, h2, hA, hB, hC, hD, hE, hF, hG, hH, hI]
    simp

/-- C4 (amended): midpoint resolution follows the order range / vocabulary /
bare number, with the canonical phrases and numeric ranges giving the
documented constants, a null/NaN input giving (null, null), and the parse
total (never an exception); but the bare-number fallback also matches the
digits of an ordinal prefix, so an ordinal prefix followed by non-range text
(e.g. "3_요인") yields midpoint ordinal/100, and the midpoint is null exactly
when the stripped input contains no digit at all. -/
theorem c4_bucket_midpoint :
    (∀ s : List Char,
        ((parse_bucket (some s)).2 = none ↔ ∀ c ∈ stripBoth s, c.isDigit = false)) ∧
    (parse_bucket (some "30-40%".toList)).2 = some (35/100) ∧
    (parse_bucket (some "90%초과".toList)).2 = some (95/100) ∧
    (parse_bucket (some "10-25%".toList)).2 = some (175/1000) ∧
    parse_bucket (some "3_요인".toList) = (some 3, some (3/100)) ∧
    parse_bucket none = (none, none) := by
  refine ⟨?_, ?_, ?_, ?_, ?_, rfl⟩
  · intro s
    simp only [parse_bucket]
    exact bucketMid_eq_none_iff (stripBoth s)
  · have hst : stripBoth "30-40%".toList = "30-40%".toList := by decide
    have hr : searchRange "30-40%".toList = some (30, 40) := by decide
    simp only [parse_bucket, hst, bucketMid, hr]
    norm_num
  · have hst : stripBoth "90%초과".toList = "90%초과".toList := by decide
    have hr : searchRange "90%초과".toList = none := by decide
    have hv : hasSub "90%초과".toList "90%초과".toList = true := by decide
    simp only [parse_bucket, hst, bucketMid, hr, hv, Bool.true_or, if_true]
  · have hst : stripBoth "10-25%".toList = "10-25%".toList := by decide
    have hr : searchRange "10-25%".toList = some (10, 25) := by decide
    simp only [parse_bucket, hst, bucketMid, hr]
    norm_num
  · have hst : stripBoth "3_요인".toList = "3_요인".toList := by decide
    have ho : matchOrdinal "3_요인".toList = some 3 := by decide
    have hr : searchRange "3_요인".toList = none := by decide
    have hn : searchNum "3_요인".toList = some (3, 0, 0) := by decide
    have hv1 : hasSub "90%초과".toList "3_요인".toList = false := by decide
    have hv2 : hasSub "90% 초과".toList "3_요인".toList = false := by decide
    have hv3 : hasSub "75-90%".toList "3_요인".toList = false := by decide
    have hv4 : hasSub "50-75%".toList "3_요인".toList = false := by decide
    have hv5 : hasSub "25-50%".toList "3_요인".toList = false := by decide
    have hv6 : hasSub "10-25%".toList "3_요인".toList = false := by decide
    have hv7 : hasSub "10%이하".toList "3_요인".toList = false := by decide
    have hv8 : hasSub "10% 이하".toList "3_요인".toList = false := by decide
    have hv9 : hasSub "1구간".toList "3_요인".toList = false := by decide
    simp only [parse_bucket, hst, Prod.mk.injEq]
    refine ⟨ho, ?_⟩
    simp only [bucketMid, hr, hn, hv1, hv2, hv3, hv4, hv5, hv6, hv7, hv8, hv9]
    norm_num [numVal]

theorem c4_bucket_midpoint_witness : (parse_bucket (some "없음".toList)).2 = none :=
  (c4_bucket_midpoint.1 "없음".toList).mpr (by decide)

/-- C4 (counterexample): "3_요인" is an ordinal prefix followed by non-range
text, yet its midpoint is 3/100 (non-null), because the bare-number regex
also matches the ordinal digits — refuting clause (d) of the claim. -/
theorem c4_bucket_midpoint_cex :
    (parse_bucket (some "3_요인".toList)).2 = some (3/100) ∧
    some ((3:ℚ)/100) ≠ (none : Option ℚ) := by
  refine ⟨?_, by simp⟩
  have hst : stripBoth "3_요인".toList = "3_요인".toList := by decide
  have hr : searchRange "3_요인".toList = none := by decide
  have hn : searchNum "3_요인".toList = some (3, 0, 0) := by decide
  have hv1 : hasSub "90%초과".toList "3_요인".toList = false := by decide
  have hv2 : hasSub "90% 초과".toList "3_요인".toList = false := by decide
  have hv3 : hasSub "75-90%".toList "3_요인".toList = false := by decide
  have hv4 : hasSub "50-75%".toList "3_요인".toList = false := by decide
  have hv5 : hasSub "25-50%".toList "3_요인".toList = false := by decide
  have hv6 : hasSub "10-25%".toList "3_요인".toList = false := by decide
  have hv7 : hasSub "10%이하".toList "3_요인".toList = false := by decide
  have hv8 : hasSub "10% 이하".toList "3_요인".toList = false := by decide
  have hv9 : hasSub "1구간".toList "3_요인".toList = false := by decide
  simp only [parse_bucket, hst, bucketMid, hr, hn, hv1, hv2, hv3, hv4, hv5, hv6, hv7, hv8, hv9]
  norm_num [numVal]

/-! ## C5 -/

theorem nextValid_eq_firstNonMissing (l : List Cell) : nextValid l = firstNonMissing l := by
  induction l with
  | nil => rfl
  | cons x r ih =>
    cases x with
    | none => simpa [nextValid, firstNonMissing] using ih
    | some v => rfl

theorem firstNonMissing_ffill (l : List Cell) :
    firstNonMissing (ffillRow none l) = firstNonMissing l := by
  induction l with
  | nil => rfl
  | cons x r ih =>
    cases x with
    | none => simpa [ffillRow, firstNonMissing] using ih
    | some v => rfl

theorem headD_bfill (l : List Cell) : (bfillRow l).headD none = firstNonMissing l := by
  cases l with
  | nil => rfl
  | cons x r =>
    cases x with
    | none => simp [bfillRow, firstNonMissing, nextValid_eq_firstNonMissing]
    | some v => rfl

/-- C5: the per-row KPI proxy built by `ffill(axis=1).bfill(axis=1).iloc[:,0]`
over the present candidate columns equals the first non-missing value taken
left-to-right (the spec's description), and `make_labels` raises its
configuration error exactly when none of the fixed candidate columns exists
in the panel. -/
theorem c5_kpi_proxy :
    (∀ vals : List Cell, kpiProxyRow vals = firstNonMissing vals) ∧
    (∀ cols : List String,
        ((∃ e, makeLabelsKpiGuard cols = Except.error e) ↔
          ∀ c ∈ KPI_CANDIDATES, c ∉ cols)) := by
  constructor
  · intro vals
    rw [kpiProxyRow, headD_bfill, firstNonMissing_ffill]
  · intro cols
    unfold makeLabelsKpiGuard
    split_ifs with h
    · simp only [kpi_candidates_of, List.filter_eq_nil_iff, decide_eq_true_eq] at h
      exact ⟨fun _ => h, fun _ => ⟨_, rfl⟩⟩
    · constructor
      · rintro ⟨e, he⟩
        simp at he
      · intro hall
        apply absurd _ h
        simp only [kpi_candidates_of, List.filter_eq_nil_iff, decide_eq_true_eq]
        exact hall

theorem c5_kpi_proxy_witness :
    kpiProxyRow [none, some (1/2), some 1] = some (1/2) :=
  (c5_kpi_proxy.1 [none, some (1/2), some 1]).trans (by simp [firstNonMissing])

/-! ## C1 -/

/-- C1 (counterexample): merchant KPI series [1, 1, NaN], horizon 1, row 1:
the +1 row exists (1 + 1 < 3) and the baseline is 1 (not missing), yet the
drop label is missing because the +1 row's KPI proxy is NaN — refuting
"missing exactly when the +H row does not exist or the baseline is missing". -/
theorem c1_drop_label_cex :
    y_drop [some 1, some 1, none] 1 (-3/10) 1 = none ∧
    1 + 1 < ([some 1, some 1, none] : List Cell).length ∧
    rollMean 3 2 [some 1, some 1, none] 1 = some 1 := by
  have hsh : shiftNeg 1 [some 1, some 1, none] 1 = none := rfl
  have hrm : rollMean 3 2 [some 1, some 1, none] 1 = some 1 := by
    norm_num [rollMean, List.filterMap_cons]
  refine ⟨?_, by norm_num, hrm⟩
  simp [y_drop, hsh, hrm]

/-- C1 (amended): the drop label at horizon H is missing exactly when the
future KPI proxy H rows ahead is missing (the +H row does not exist or its
proxy value is itself missing) or the 3-month trailing baseline is missing;
when both are present and the baseline is nonzero, the label is 1 iff the
relative change (future - baseline)/baseline is ≤ the threshold (inclusive
at equality) and 0 iff it exceeds it. -/
theorem c1_drop_label (xs : List Cell) (H i : Nat) (thresh : ℚ) :
    (y_drop xs H thresh i = none ↔ shiftNeg H xs i = none ∨ rollMean 3 2 xs i = none) ∧
    (∀ f m : ℚ, shiftNeg H xs i = some f → rollMean 3 2 xs i = some m → m ≠ 0 →
      ((y_drop xs H thresh i = some 1 ↔ (f - m) / m ≤ thresh) ∧
       (y_drop xs H thresh i = some 0 ↔ thresh < (f - m) / m))) := by
  constructor
  · rcases hf : shiftNeg H xs i with _ | f <;> rcases hm : rollMean 3 2 xs i with _ | m <;>
      simp [y_drop, hf, hm]
  · intro f m hf hm hm0
    have hd : dropCmp f m thresh = decide ((f - m) / m ≤ thresh) := by
      unfold dropCmp
      rw [if_neg hm0]
    have hval : y_drop xs H thresh i = some (if (f - m) / m ≤ thresh then (1:ℤ) else 0) := by
      simp only [y_drop, hf, hm, hd]
      by_cases hb : (f - m) / m ≤ thresh <;> simp [hb]
    rw [hval]
    by_cases hb : (f - m) / m ≤ thresh
    · rw [if_pos hb]
      exact ⟨⟨fun _ => hb, fun _ => rfl⟩,
             ⟨fun h => by simp at h, fun h => absurd hb (not_le.mpr h)⟩⟩
    · rw [if_neg hb]
      exact ⟨⟨fun h => by simp at h, fun h => absurd h hb⟩,
             ⟨fun _ => not_le.mp hb, fun _ => rfl⟩⟩

/-- boundary witness: relative change exactly at the threshold is labeled 1. -/
theorem c1_drop_label_witness :
    y_drop [some 1, some 1, some (7/10)] 1 (-3/10) 1 = some 1 := by
  have hf : shiftNeg 1 [some 1, some 1, some (7/10)] 1 = some (7/10) := rfl
  have hm : rollMean 3 2 [some 1, some 1, some (7/10)] 1 = some 1 := by
    norm_num [rollMean, List.filterMap_cons]
  exact (((c1_drop_label [some 1, some 1, some (7/10)] 1 1 (-3/10)).2 (7/10) 1 hf hm
    (by norm_num)).1).mpr (by norm_num)

/-! ## C3 -/

theorem foldl_maxNA_none_iff (l : List (Option ℤ)) (acc : Option ℤ) :
    l.foldl maxNA acc = none ↔ acc = none ∧ ∀ x ∈ l, x = none := by
  induction l generalizing acc with
  | nil => simp
  | cons x r ih =>
    simp only [List.foldl_cons, ih, List.mem_cons]
    cases acc <;> cases x <;> simp [maxNA]

theorem foldl_maxNA_mem (l : List (Option ℤ)) (acc : Option ℤ) (v : ℤ)
    (h : l.foldl maxNA acc = some v) : acc = some v ∨ some v ∈ l := by
  induction l generalizing acc with
  | nil => simp at h; simp [h]
  | cons x r ih =>
    rcases ih (maxNA acc x) (by simpa using h) with h1 | h2
    · rcases acc with _ | a <;> rcases x with _ | b
      · simp [maxNA] at h1
      · simp [maxNA] at h1
        simp [h1]
      · simp [maxNA] at h1
        simp [h1]
      · simp only [maxNA, Option.some.injEq] at h1
        rcases max_choice a b with hm | hm
        · left
          rw [← h1, hm]
        · right
          simp [← h1, hm]
    · right
      exact List.mem_cons_of_mem x h2

theorem foldl_maxNA_ge (l : List (Option ℤ)) (acc : Option ℤ) (a : ℤ)
    (h : (∃ b, acc = some b ∧ a ≤ b) ∨ some a ∈ l) :
    ∃ v, l.foldl maxNA acc = some v ∧ a ≤ v := by
  induction l generalizing acc with
  | nil =>
    rcases h with ⟨b, hb, hab⟩ | hmem
    · exact ⟨b, by simp [hb], hab⟩
    · simp at hmem
  | cons x r ih =>
    simp only [List.foldl_cons]
    apply ih
    rcases h with ⟨b, hb, hab⟩ | hmem
    · subst hb
      left
      rcases x with _ | c
      · exact ⟨b, rfl, hab⟩
      · exact ⟨max b c, rfl, hab.trans (le_max_left b c)⟩
    · rcases List.mem_cons.mp hmem with hx | hx
      · subst hx
        left
        rcases acc with _ | b
        · exact ⟨a, rfl, le_refl a⟩
        · exact ⟨max b a, rfl, le_max_right b a⟩
      · right
        exact hx

theorem y_drop_range (xs : List Cell) (H : Nat) (thresh : ℚ) (i : Nat) :
    y_drop xs H thresh i = none ∨ y_drop xs H thresh i = some 0 ∨
      y_drop xs H thresh i = some 1 := by
  unfold y_drop
  rcases shiftNeg H xs i with _ | f <;> rcases rollMean 3 2 xs i with _ | m <;> simp

theorem y_close_range (cm : Option ℤ) (t hor : ℤ) :
    y_close cm t hor = none ∨ y_close cm t hor = some 0 ∨ y_close cm t hor = some 1 := by
  rcases cm with _ | c
  · simp [y_close]
  · simp only [y_close]
    split_ifs <;> simp

theorem riskComponents_range (xs : List Cell) (Hs : List Nat) (thresh : ℚ)
    (cm : Option ℤ) (t hor : ℤ) (i : Nat) :
    ∀ x ∈ riskComponents xs Hs thresh cm t hor i,
      x = none ∨ x = some 0 ∨ x = some 1 := by
  intro x hx
  simp only [riskComponents, List.mem_append, List.mem_map, List.mem_singleton] at hx
  rcases hx with ⟨H, _, hH⟩ | hx
  · rw [← hH]
    exact y_drop_range xs H thresh i
  · rw [hx]
    exact y_close_range cm t hor

/-- C3: the union risk label is the skipna row-wise maximum of the drop and
closure labels: it is 1 iff some component is 1, missing iff every component
is missing, and 0 when all components are present and 0. -/
theorem c3_union_risk (xs : List Cell) (Hs : List Nat) (thresh : ℚ)
    (cm : Option ℤ) (t hor : ℤ) (i : Nat) :
    (y_risk_any xs Hs thresh cm t hor i = some 1 ↔
        some 1 ∈ riskComponents xs Hs thresh cm t hor i) ∧
    (y_risk_any xs Hs thresh cm t hor i = none ↔
        ∀ x ∈ riskComponents xs Hs thresh cm t hor i, x = none) ∧
    ((∀ x ∈ riskComponents xs Hs thresh cm t hor i, x = some 0) →
        y_risk_any xs Hs thresh cm t hor i = some 0) := by
  have hrange := riskComponents_range xs Hs thresh cm t hor i
  refine ⟨⟨?_, ?_⟩, ?_, ?_⟩
  · intro h
    rcases foldl_maxNA_mem _ none 1 h with h1 | h1
    · simp at h1
    · exact h1
  · intro hmem
    obtain ⟨v, hv, h1v⟩ := foldl_maxNA_ge _ none 1 (Or.inr hmem)
    rcases foldl_maxNA_mem _ none v hv with h1 | h1
    · simp at h1
    · rcases hrange _ h1 with h2 | h2 | h2
      · simp at h2
      · simp only [Option.some.injEq] at h2
        omega
      · rw [y_risk_any, rowMaxSkipNA, hv]
        exact h2
  · exact foldl_maxNA_none_iff _ none |>.trans (by simp)
  · intro hall
    have hcl : y_close cm t hor ∈ riskComponents xs Hs thresh cm t hor i := by
      simp [riskComponents]
    have hc0 : some (0 : ℤ) ∈ riskComponents xs Hs thresh cm t hor i := by
      rw [← hall _ hcl]
      exact hcl
    obtain ⟨v, hv, h0v⟩ := foldl_maxNA_ge _ none 0 (Or.inr hc0)
    rcases foldl_maxNA_mem _ none v hv with h1 | h1
    · simp at h1
    · have hv0 := hall _ h1
      rw [y_risk_any, rowMaxSkipNA, hv]
      exact hv0

theorem c3_union_risk_witness :
    y_risk_any [some 1, some 1, some 1] [1] (-3/10) none 0 3 1 = some 0 := by
  apply (c3_union_risk [some 1, some 1, some 1] [1] (-3/10) none 0 3 1).2.2
  intro x hx
  have hdrop : y_drop [some 1, some 1, some 1] 1 (-3/10) 1 = some 0 := by
    have hf : shiftNeg 1 [some 1, some 1, some 1] 1 = some 1 := rfl
    have hm : rollMean 3 2 [some 1, some 1, some 1] 1 = some 1 := by
      norm_num [rollMean, List.filterMap_cons]
    have hcmp : dropCmp 1 1 (-3/10) = false := by
      norm_num [dropCmp]
    simp [y_drop, hf, hm, hcmp]
  simp only [riskComponents, List.mem_append, List.mem_map, List.mem_singleton] at hx
  rcases hx with ⟨H, hH, heq⟩ | hx
  · subst hH
    rw [← heq, hdrop]
  · rw [hx]
    rfl

/-! ## C7 -/

theorem list_sum_nonneg_eq_zero_iff (l : List ℚ) (h : ∀ x ∈ l, 0 ≤ x) :
    l.sum = 0 ↔ ∀ x ∈ l, x = 0 := by
  induction l with
  | nil => simp
  | cons x r ih =>
    have hx := h x (by simp)
    have hr : ∀ y ∈ r, 0 ≤ y := fun y hy => h y (by simp [hy])
    have hrs : 0 ≤ r.sum := List.sum_nonneg hr
    simp only [List.sum_cons, List.mem_cons]
    constructor
    · intro h0
      have hx0 : x = 0 := by linarith
      have hr0 : r.sum = 0 := by linarith
      intro y hy
      rcases hy with rfl | hy
      · exact hx0
      · exact (ih hr).mp hr0 y hy
    · intro hall
      have hx0 : x = 0 := hall x (Or.inl rfl)
      have hr0 : r.sum = 0 := (ih hr).mpr (fun y hy => hall y (Or.inr hy))
      rw [hx0, hr0, add_zero]

theorem list_sum_const (l : List ℚ) (c : ℚ) (h : ∀ x ∈ l, x = c) :
    l.sum = l.length * c := by
  induction l with
  | nil => simp
  | cons x r ih =>
    have hx := h x (by simp)
    have hr := ih (fun y hy => h y (by simp [hy]))
    simp only [List.sum_cons, List.length_cons, hx, hr]
    push_cast
    ring

theorem list_mean_const (l : List ℚ) (c : ℚ) (h : ∀ x ∈ l, x = c) (hne : l ≠ []) :
    l.sum / l.length = c := by
  have h0 : l.length ≠ 0 := fun hl => hne (List.length_eq_zero.mp hl)
  have hlen : (l.length : ℚ) ≠ 0 := Nat.cast_ne_zero.mpr h0
  rw [list_sum_const l c h, mul_comm, mul_div_assoc, div_self hlen, mul_one]

theorem two_le_length_of_mem_ne (l : List ℚ) (a b : ℚ) (ha : a ∈ l) (hb : b ∈ l)
    (hab : a ≠ b) : 2 ≤ l.length := by
  match l with
  | [] => simp at ha
  | [x] =>
    simp at ha hb
    exact absurd (ha.trans hb.symm) hab
  | x :: y :: r =>
    simp only [List.length_cons]
    omega

theorem groupVar_eq_zero_of_const (g : List Cell) (c : ℚ)
    (hc : ∀ x ∈ validVals g, x = c) (h2 : 2 ≤ (validVals g).length) :
    groupVar g = some 0 := by
  have hne : validVals g ≠ [] := by
    intro h0
    rw [h0] at h2
    simp at h2
  have hmean : (validVals g).sum / (validVals g).length = c := list_mean_const _ c hc hne
  have hnum : ((validVals g).map
      (fun x => (x - (validVals g).sum / (validVals g).length) ^ 2)).sum = 0 := by
    have hmap : (validVals g).map
        (fun x => (x - (validVals g).sum / (validVals g).length) ^ 2) =
        (validVals g).map (fun _ => 0) := by
      apply List.map_congr_left
      intro x hx
      rw [hmean, hc x hx, sub_self]
      ring
    rw [hmap]
    simp
  simp only [groupVar]
  rw [if_neg (by omega), hnum, zero_div]

theorem groupVar_pos_of_mem_ne (g : List Cell) (a b : ℚ)
    (ha : a ∈ validVals g) (hb : b ∈ validVals g) (hab : a ≠ b) :
    ∃ v, groupVar g = some v ∧ 0 < v := by
  have h2 := two_le_length_of_mem_ne (validVals g) a b ha hb hab
  have hnn : ∀ x ∈ (validVals g).map
      (fun x => (x - (validVals g).sum / (validVals g).length) ^ 2), 0 ≤ x := by
    intro x hx
    simp only [List.mem_map] at hx
    obtain ⟨y, _, hy⟩ := hx
    rw [← hy]
    positivity
  have hSne : ((validVals g).map
      (fun x => (x - (validVals g).sum / (validVals g).length) ^ 2)).sum ≠ 0 := by
    intro h0
    have hall := (list_sum_nonneg_eq_zero_iff _ hnn).mp h0
    have hz : ∀ x ∈ validVals g, x = (validVals g).sum / (validVals g).length := by
      intro x hx
      have h0x := hall _ (List.mem_map_of_mem _ hx)
      have hsub := sq_eq_zero_iff.mp h0x
      linarith [hsub]
    exact hab ((hz a ha).trans (hz b hb).symm)
  have hS : 0 < ((validVals g).map
      (fun x => (x - (validVals g).sum / (validVals g).length) ^ 2)).sum :=
    lt_of_le_of_ne (List.sum_nonneg hnn) (Ne.symm hSne)
  refine ⟨((validVals g).map
      (fun x => (x - (validVals g).sum / (validVals g).length) ^ 2)).sum /
        (((validVals g).length : ℚ) - 1), ?_, ?_⟩
  · simp only [groupVar]
    rw [if_neg (by omega)]
  · apply div_pos hS
    have hcast : (2:ℚ) ≤ ((validVals g).length : ℚ) := by exact_mod_cast h2
    linarith

theorem groupMean_eq (g : List Cell) (h : (validVals g).length ≠ 0) :
    groupMean g = some ((validVals g).sum / (validVals g).length) := by
  simp only [groupMean]
  rw [if_neg h]

theorem peerZ_none_of_stdRepl_none (g : List Cell) (x : Cell)
    (h : groupStdRepl g = none) : peerZ g x = none := by
  rcases x with _ | xv <;> rcases hm : groupMean g with _ | m <;> simp [peerZ, h, hm]

/-- C7: in a degenerate peer group (at most one non-missing member, or all
non-missing members equal, i.e. zero standard deviation) every member's peer
z-score is missing — never 0, never infinite, never a division error; in a
non-degenerate group a present value's z-score is exactly
(value − group mean) / group standard deviation, both statistics computed
from the group's non-missing values only, with a strictly positive variance
so the standard deviation is nonzero. -/
theorem c7_peer_zscore (g : List Cell) (x : Cell) :
    ((validVals g).length ≤ 1 ∨ (∀ a ∈ validVals g, ∀ b ∈ validVals g, a = b) →
        peerZ g x = none) ∧
    (∀ xv a b : ℚ, x = some xv → a ∈ validVals g → b ∈ validVals g → a ≠ b →
        ∃ m v : ℚ, groupMean g = some m ∧ groupVar g = some v ∧ 0 < v ∧
          Real.sqrt (v : ℝ) ≠ 0 ∧
          m = (validVals g).sum / (validVals g).length ∧
          peerZ g x = some (((xv : ℝ) - (m : ℝ)) / Real.sqrt (v : ℝ))) := by
  constructor
  · intro hdeg
    apply peerZ_none_of_stdRepl_none
    by_cases hlen : (validVals g).length ≤ 1
    · have hvar : groupVar g = none := by
        simp only [groupVar]
        rw [if_pos hlen]
      simp [groupStdRepl, hvar]
    · rcases hdeg with h | hconst
      · exact absurd h hlen
      · have h2 : 2 ≤ (validVals g).length := by omega
        have hne : validVals g ≠ [] := by
          intro h0
          rw [h0] at h2
          simp at h2
        obtain ⟨c, cs, hcons⟩ := List.exists_cons_of_ne_nil hne
        have hc : ∀ y ∈ validVals g, y = c :=
          fun y hy => hconst y hy c (by rw [hcons]; simp)
        have hvar := groupVar_eq_zero_of_const g c hc h2
        simp [groupStdRepl, hvar]
  · intro xv a b hx ha hb hab
    obtain ⟨v, hvar, hv⟩ := groupVar_pos_of_mem_ne g a b ha hb hab
    have h2 := two_le_length_of_mem_ne (validVals g) a b ha hb hab
    have hlen : (validVals g).length ≠ 0 := by omega
    have hmean := groupMean_eq g hlen
    have hsqrt : Real.sqrt (v : ℝ) ≠ 0 := by
      have hvc : (0:ℝ) < (v:ℝ) := by exact_mod_cast hv
      exact ne_of_gt (Real.sqrt_pos.mpr hvc)
    have hstd : groupStdRepl g = some (Real.sqrt (v : ℝ)) := by
      simp [groupStdRepl, hvar, ne_of_gt hv]
    refine ⟨_, v, hmean, hvar, hv, hsqrt, rfl, ?_⟩
    rw [hx]
    simp [peerZ, hmean, hstd]

theorem c7_peer_zscore_witness : peerZ [some 2, some 2, none] (some 2) = none :=
  (c7_peer_zscore [some 2, some 2, none] (some 2)).1 (Or.inr (by decide))

/-! ## C10 -/

theorem rowKey_none_of_missing (r : PanelRow)
    (h : r.sigungu = none ∨ r.bzn = none ∨ r.ta_ym = none) : rowKey r = none := by
  unfold rowKey
  rcases hs : r.sigungu with _ | a <;> rcases hb : r.bzn with _ | b <;>
    rcases ht : r.ta_ym with _ | t <;> simp_all

/-- C10: a row with a missing region key, business-zone key, or month is
excluded from the peer grouping and its peer z-score is missing; in
particular, when the key columns were absent from the merge and added as
all-missing columns, every row of the panel gets a missing peer z-score. -/
theorem c10_missing_group_keys (rows : List PanelRow) (i : Nat) :
    (∀ h : i < rows.length,
        (rows.get ⟨i, h⟩).sigungu = none ∨ (rows.get ⟨i, h⟩).bzn = none ∨
          (rows.get ⟨i, h⟩).ta_ym = none →
        (peerZCol rows).getD i none = none) ∧
    (∀ z ∈ peerZCol (addMissingKeyCol rows), z = none) := by
  constructor
  · intro h hmiss
    have hkey := rowKey_none_of_missing _ hmiss
    rw [List.get_eq_getElem] at hkey
    unfold peerZCol
    rw [List.getD_eq_getElem?_getD, List.getElem?_map, List.getElem?_eq_getElem h]
    simp [hkey]
  · intro z hz
    simp only [peerZCol, addMissingKeyCol, List.map_map, List.mem_map] at hz
    obtain ⟨r, _, hr⟩ := hz
    rw [← hr]
    simp [Function.comp, rowKey]

theorem c10_missing_group_keys_witness :
    (peerZCol [⟨none, some "a", some 0, some 1⟩]).getD 0 none = none :=
  (c10_missing_group_keys [⟨none, some "a", some 0, some 1⟩] 0).1 (by decide) (Or.inl rfl)
